import Mathlib

/-
Verification of the neobase geographic reference store
(src/neobase/neobase.py) against its natural-language specification.

The Python module is shallowly embedded:
  * a Python dict is an insertion-ordered association list (`Dict`);
  * heterogeneous Python values stored in a record are `Value`;
  * Python exceptions are the error side of `Except PyErr`;
  * Python floats are modelled as rationals; the haversine numeric core
    (degree-to-radian conversion plus IEEE-754 trig in
    `distance_between_locations`) is abstracted as a parameter
    `hav : LatLng → LatLng → ℚ`, since every claim proved below concerns
    only selection, propagation and error logic, which is independent of
    the numeric value of a distance.
-/

set_option maxRecDepth 10000

attribute [local semireducible] Rat.add Rat.mul Rat.sub Rat.inv Rat.ofScientific

/-- Python exception classes raised by the embedded code.
`unknownKeyError` is the module's `UnknownKeyError(KeyError)`;
`keyError` is a plain `KeyError` (field lookup); `indexError` is an
out-of-range row access; `valueError`/`typeError` come from `float()`. -/
inductive PyErr where
  | unknownKeyError
  | keyError
  | indexError
  | valueError
  | typeError
  deriving DecidableEq, Repr

/-- Membership of an exception in Python's `KeyError` class:
`UnknownKeyError` is a subclass of `KeyError`, hence caught by
`except KeyError` in `NeoBase.distance`. -/
def PyErr.isKeyError : PyErr → Bool
  | .unknownKeyError => true
  | .keyError => true
  | _ => false

/-- Heterogeneous Python values held in one record:
plain strings, `float`-or-`None` (page rank), lists of strings
(city code/name lists and `list(location_type)`), and the set of
strings stored under the `__dup__` key. -/
inductive Value where
  | str (s : String)
  | num (q : Option ℚ)
  | list (l : List String)
  | strset (s : Finset String)
  deriving DecidableEq

instance exceptDecEq {ε α : Type} [DecidableEq ε] [DecidableEq α] :
    DecidableEq (Except ε α) := fun a b =>
  match a, b with
  | .ok x, .ok y =>
    if h : x = y then .isTrue (congrArg _ h)
    else .isFalse (fun hh => h (Except.ok.inj hh))
  | .error x, .error y =>
    if h : x = y then .isTrue (congrArg _ h)
    else .isFalse (fun hh => h (Except.error.inj hh))
  | .ok _, .error _ => .isFalse (fun hh => Except.noConfusion hh)
  | .error _, .ok _ => .isFalse (fun hh => Except.noConfusion hh)

/-- Python dict with string keys: an insertion-ordered association list
whose keys are unique (lookup returns the first match; update keeps the
original position, insertion appends). -/
abbrev Dict (β : Type) : Type := List (String × β)

/-- Dictionary lookup, Python `d[k]` / `k in d`. -/
def Dict.get? {β : Type} : Dict β → String → Option β
  | [], _ => none
  | (k, v) :: t, key => if k = key then some v else Dict.get? t key

/-- Dictionary update, Python `d[k] = v`: replaces in place if the key
exists, otherwise appends at the end. -/
def Dict.set {β : Type} : Dict β → String → β → Dict β
  | [], key, val => [(key, val)]
  | (k, v) :: t, key, val =>
    if k = key then (k, val) :: t else (k, v) :: Dict.set t key val

/-- One record of the store, Python's per-key dict of fields. -/
abbrev Record : Type := Dict Value

/-- The whole store, Python's `self._data` dict. -/
abbrev Store : Type := Dict Record

/-- One raw data row, already split on the `^` delimiter. -/
abbrev Row : Type := List String

/-- Geographic coordinates as the `LatLng` named tuple (degrees). -/
abbrev LatLng : Type := ℚ × ℚ

/-- Python `str.upper()` on code points, written on the character list
(Lean's byte-position `String.toUpper` is extensionally the same but is
defined by well-founded recursion, which blocks kernel evaluation). -/
def pyUpper (s : String) : String :=
  String.mk (s.data.map Char.toUpper)

/-- Python `s.startswith(pre)`, written on the character lists. -/
def pyStartsWith (s pre : String) : Bool :=
  pre.data.isPrefixOf s.data

/-- Python `str.strip()` as performed by `float()`: surrounding
whitespace characters removed. -/
def pyStrip (s : String) : List Char :=
  ((s.data.dropWhile Char.isWhitespace).reverse.dropWhile Char.isWhitespace).reverse

/-- Lexicographic comparison of two character lists by code point, the
order Python uses to compare strings.  (Proved equivalent to Lean's
`List.lt`, hence to `String.lt`, in `pyStrLt_iff` below; written as a
structurally recursive Bool so that proofs can evaluate it.) -/
def charListLt : List Char → List Char → Bool
  | _, [] => false
  | [], _ :: _ => true
  | a :: as, b :: bs =>
    if a.toNat < b.toNat then true
    else if b.toNat < a.toNat then false
    else charListLt as bs

/-- Python `s < t` on strings: lexicographic by code point. -/
def pyStrLt (s t : String) : Bool :=
  charListLt s.data t.data

/-- Numeric value of a list of decimal digit characters. -/
def digitsToNat (l : List Char) : Nat :=
  l.foldl (fun a c => 10 * a + (c.toNat - 48)) 0

/-- Unsigned part of Python `float()` parsing on the decimal fragment:
digit sequences with at most one decimal point and at least one digit. -/
def parseUnsigned (l : List Char) : Option ℚ :=
  match l.splitOn '.' with
  | [i] =>
    if i ≠ [] ∧ i.all Char.isDigit then some (digitsToNat i : ℚ) else none
  | [i, f] =>
    if (i ≠ [] ∨ f ≠ []) ∧ i.all Char.isDigit ∧ f.all Char.isDigit then
      some ((digitsToNat i : ℚ) + (digitsToNat f : ℚ) / (10 : ℚ) ^ f.length)
    else none
  | _ => none

/-- Python `float(s)` on a string, modelled on decimal literals:
surrounding whitespace is stripped, an optional sign precedes the
digits.  (Exponent, infinity and NaN forms are outside the data this
module parses and are not modelled.) -/
def parseFloat (s : String) : Option ℚ :=
  match pyStrip s with
  | '+' :: rest => parseUnsigned rest
  | '-' :: rest => (parseUnsigned rest).map Neg.neg
  | l => parseUnsigned l

/-- Python `float(x)` on an arbitrary stored value: strings are parsed
(`ValueError` on failure), numbers pass through, `None` and lists raise
`TypeError`. -/
def pyFloat : Value → Except PyErr ℚ
  | .str s =>
    match parseFloat s with
    | some q => .ok q
    | none => .error .valueError
  | .num (some q) => .ok q
  | .num none => .error .typeError
  | .list _ => .error .typeError
  | .strset _ => .error .typeError

namespace NeoBase

/-- Column index of the primary key (`KEY = 0`, the iata_code column). -/
def KEY : Nat := 0

/-- Field schema `FIELDS`: name, source column, decoder.  The decoder
returns `Except` because Python's `float` decoder for `page_rank` can
raise on malformed input. -/
def FIELDS : List (String × Nat × (String → Except PyErr Value)) :=
  [("iata_code", 0, fun s => .ok (.str s)),
   ("name", 6, fun s => .ok (.str s)),
   ("lat", 8, fun s => .ok (.str s)),
   ("lng", 9, fun s => .ok (.str s)),
   ("page_rank", 12, fun s =>
     if s = "" then .ok (.num none)
     else match parseFloat s with
       | some q => .ok (.num (some q))
       | none => .error .valueError),
   ("country_code", 16, fun s => .ok (.str s)),
   ("country_name", 18, fun s => .ok (.str s)),
   ("continent_name", 19, fun s => .ok (.str s)),
   ("timezone", 31, fun s => .ok (.str s)),
   ("city_code_list", 36, fun s => .ok (.list (s.splitOn ","))),
   ("city_name_list", 37, fun s => .ok (.list (s.splitOn "="))),
   ("location_type", 41, fun s => .ok (.list (s.toList.map (fun c => String.mk [c])))),
   ("currency", 46, fun s => .ok (.str s))]

/-- Python `NeoBase._empty_value`: a fresh record holding only an empty
duplicate set. -/
def empty_value : Record := [("__dup__", .strset ∅)]

/-- Python `NeoBase.skip(row, date)`: date-window filtering on columns
13 (valid-from) and 14 (valid-until); `none` models the `IndexError`
raised when the row is too short.  String comparison (`pyStrLt`) is
Python's lexicographic code-point order; `date > date_until` is
`date_until < date`. -/
def skip (row : Row) (date : String) : Option Bool := do
  let date_from ← row.get? 13
  let date_until ← row.get? 14
  if date_from ≠ "" ∧ pyStrLt date date_from then return true
  if date_until ≠ "" ∧ pyStrLt date_until date then return true
  return false

/-- One schema-field assignment `d[field] = splitter(row[c])` inside
the record-construction loop of `NeoBase.load`, raising `IndexError`
on a short row. -/
def buildStep (row : Row) (d : Record)
    (fcs : String × Nat × (String → Except PyErr Value)) : Except PyErr Record :=
  match row.get? fcs.2.1 with
  | none => .error .indexError
  | some s => do
    let v ← fcs.2.2 s
    pure (Dict.set d fcs.1 v)

/-- Construction of the record `d` inside `NeoBase.load`:
start from `empty_value()` and assign `splitter(row[c])` (or `row[c]`)
for every schema field. -/
def buildRecord (row : Row) : Except PyErr Record :=
  FIELDS.foldlM (buildStep row) empty_value

/-- The set stored under `__dup__`.  For every record built by `load`
this entry is present and is a set; the default `∅` branch is
unreachable there. -/
def Record.dup (r : Record) : Finset String :=
  match Dict.get? r "__dup__" with
  | some (.strset s) => s
  | _ => ∅

/-- Synthesized duplicate slot, Python's f-string `f"{key}@{n}"`. -/
def dupKey (key : String) (n : Nat) : String :=
  key ++ "@" ++ Nat.repr n

/-- Body of the row loop of `NeoBase.load` for one row: comment/blank
filtering, date filtering, empty-key filtering, keep-first skipping,
record construction and duplicate cross-linking. -/
def loadStep (duplicates : Bool) (date : String) (data : Store) (row : Row) :
    Except PyErr Store :=
  match row with
  | [] => .ok data
  | c0 :: _ =>
    if pyStartsWith c0 "#" then .ok data
    else
      match skip row date with
      | none => .error .indexError
      | some true => .ok data
      | some false =>
        let key := c0
        if key = "" then .ok data
        else if (Dict.get? data key).isSome && !duplicates then .ok data
        else do
          let d ← buildRecord row
          match Dict.get? data key with
          | none => .ok (Dict.set data key d)
          | some prev_d =>
            let new_key := dupKey key (1 + (Record.dup prev_d).card)
            let d := Dict.set d "__dup__" (.strset (Record.dup prev_d ∪ {key}))
            let data := Dict.set data new_key d
            .ok (Dict.set data key
              (Dict.set prev_d "__dup__"
                (.strset (insert new_key (Record.dup prev_d)))))

/-- Python `NeoBase.load(f, date, duplicates)` on pre-split rows: the
first element is consumed as the header, then each row goes through
`loadStep`.  (The caret-delimited CSV splitting is performed by
`csv.reader` upstream of the logic under verification; rows enter here
already split.) -/
def load (f : List Row) (date : String) (duplicates : Bool) : Except PyErr Store :=
  (f.drop 1).foldlM (loadStep duplicates date) ([] : Store)

/-- Lookup of a possibly-`None` key after case normalization, the common
core of `__contains__` and `get`.  Stores built by `load` have only
string keys, so a `None` key is never present. -/
def lookupNorm (b : Store) : Option String → Option Record
  | none => none
  | some k => Dict.get? b (pyUpper k)

/-- Python `NeoBase.__contains__`: case-insensitive key test. -/
def contains (b : Store) (key : Option String) : Bool :=
  (lookupNorm b key).isSome

/-- Python `iter(self)` / `NeoBase.keys()`: all keys in insertion
order. -/
def keys (b : Store) : List String :=
  b.map Prod.fst

/-- Result of `NeoBase.get`: the whole record (no field requested), one
field's value, or the caller-supplied default. -/
inductive GetRes (α : Type) where
  | record (r : Record)
  | field (v : Value)
  | dflt (a : α)
  deriving DecidableEq

/-- Python `NeoBase.get(key, field=None, default=_sentinel)`.  The
sentinel is modelled by `default = none`; `default = some a` models a
caller-supplied default of arbitrary type `α`. -/
def get {α : Type} (b : Store) (key : Option String) (field : Option String)
    (default : Option α) : Except PyErr (GetRes α) :=
  match lookupNorm b key with
  | none =>
    match default with
    | none => .error .unknownKeyError
    | some a => .ok (.dflt a)
  | some d =>
    match field with
    | none => .ok (.record d)
    | some f =>
      match Dict.get? d f with
      | none => .error .keyError
      | some v => .ok (.field v)

/-- Field access `self.get(key, f)` as performed inside `get_location`:
no default, so the only possible outcomes are a field value or an
exception.  (`get` with a field argument never returns a whole record;
that branch is unreachable.) -/
def getField (b : Store) (key : Option String) (f : String) : Except PyErr Value :=
  match get b key (some f) (none : Option Empty) with
  | .error e => .error e
  | .ok (.field v) => .ok v
  | .ok (.record _) => .error .typeError
  | .ok (.dflt a) => a.elim

/-- Body of the `try` block of `NeoBase.get_location`:
`LatLng(float(self.get(key, lat_field)), float(self.get(key, lng_field)))`. -/
def locAttempt (b : Store) (key : Option String) (lat_field lng_field : String) :
    Except PyErr LatLng := do
  let lv ← getField b key lat_field
  let lat ← pyFloat lv
  let gv ← getField b key lng_field
  let lng ← pyFloat gv
  pure (lat, lng)

/-- Result of `NeoBase.get_location`: a geocode, Python `None`
(geocode unusable), or the caller-supplied default. -/
inductive GeoRes (α : Type) where
  | loc (l : LatLng)
  | absent
  | dflt (a : α)
  deriving DecidableEq

/-- Python `NeoBase.get_location(key, lat_field="lat", lng_field="lng",
default=_sentinel)`: raises `UnknownKeyError` on an absent key (default
returned instead when supplied); for a present key every
`ValueError`, `TypeError` or `KeyError` of the extraction is caught and
`None` is returned. -/
def get_location {α : Type} (b : Store) (key : Option String)
    (lat_field lng_field : String) (default : Option α) :
    Except PyErr (GeoRes α) :=
  if contains b key then
    match locAttempt b key lat_field lng_field with
    | .ok ll => .ok (.loc ll)
    | .error e =>
      if e.isKeyError || e == .valueError || e == .typeError then .ok .absent
      else .error e
  else
    match default with
    | none => .error .unknownKeyError
    | some a => .ok (.dflt a)

/-- Internal call `self.get_location(key)` with default field names and
no default value, as used by `distance`, `_build_distances`,
`find_near` and `find_closest_from`: success carries
`Option LatLng` exactly as in Python. -/
def get_locationD (b : Store) (key : Option String) : Except PyErr (Option LatLng) :=
  match get_location b key "lat" "lng" (none : Option Empty) with
  | .ok (.loc ll) => .ok (some ll)
  | .ok .absent => .ok none
  | .ok (.dflt a) => a.elim
  | .error e => .error e

/-- Python `NeoBase.distance_between_locations(l0, l1)`: `None`
propagates; otherwise the haversine great-circle distance, whose
numeric core is the abstracted parameter `hav`. -/
def distance_between_locations (hav : LatLng → LatLng → ℚ) :
    Option LatLng → Option LatLng → Option ℚ
  | some l0, some l1 => some (hav l0 l1)
  | _, _ => none

/-- Python `itertools.pairwise`: consecutive pairs of a list. -/
def pairwiseL {α : Type} : List α → List (α × α)
  | [] => []
  | [_] => []
  | a :: b :: t => (a, b) :: pairwiseL (b :: t)

/-- Python `math.fsum` over the summands produced in `distance`:
a `None` summand raises `TypeError`, otherwise the exact sum.  (Float
rounding is outside the embedding; `fsum` is exact over rationals.) -/
def fsum : List (Option ℚ) → Except PyErr ℚ
  | [] => .ok 0
  | none :: _ => .error .typeError
  | some q :: t => (fsum t).map (fun s => q + s)

/-- Python `NeoBase.distance(*keys, default=_sentinel)`: resolve every
key's location (a `KeyError` is replaced by the default when one is
supplied), then sum the chained pairwise distances.  Success is
`Sum.inl` (a distance) or `Sum.inr` (the default). -/
def distance {α : Type} (hav : LatLng → LatLng → ℚ) (b : Store)
    (keysArg : List String) (default : Option α) : Except PyErr (ℚ ⊕ α) :=
  match keysArg.mapM (fun k => get_locationD b (some k)) with
  | .error e =>
    if e.isKeyError then
      match default with
      | none => .error e
      | some a => .ok (.inr a)
    else .error e
  | .ok locations =>
    (fsum ((pairwiseL locations).map
      (fun p => distance_between_locations hav p.1 p.2))).map .inl

/-- Python `NeoBase._build_distances(lat_lng_ref, keys)`: nothing for an
absent reference location; otherwise each candidate key that is in the
store and has a usable geocode yields its distance paired with the key.
(`get_location` never raises on a contained key, see
`get_locationD_isOk_of_contains`; the `.error` branch is unreachable.) -/
def _build_distances (hav : LatLng → LatLng → ℚ) (b : Store)
    (lat_lng_ref : Option LatLng) (keysArg : List String) : List (ℚ × String) :=
  match lat_lng_ref with
  | none => []
  | some _ =>
    keysArg.filterMap fun key =>
      if contains b (some key) then
        match get_locationD b (some key) with
        | .ok (some lat_lng) =>
          (distance_between_locations hav lat_lng_ref (some lat_lng)).map
            (fun d => (d, key))
        | _ => none
      else none

/-- Python `NeoBase.find_near_location(lat_lng, radius, from_keys)`:
distances to all candidates, filtered by `dist <= radius`
(`from_keys = none` means all keys of the store). -/
def find_near_location (hav : LatLng → LatLng → ℚ) (b : Store)
    (lat_lng : Option LatLng) (radius : ℚ) (from_keys : Option (List String)) :
    List (ℚ × String) :=
  let fk := match from_keys with | none => keys b | some l => l
  (_build_distances hav b lat_lng fk).filter (fun p => p.1 ≤ radius)

/-- Python `NeoBase.find_near(key, radius, from_keys)`: soft-fails to
the empty result on an unknown reference key, else delegates to
`find_near_location` on the key's (possibly `None`) geocode. -/
def find_near (hav : LatLng → LatLng → ℚ) (b : Store) (key : Option String)
    (radius : ℚ) (from_keys : Option (List String)) : List (ℚ × String) :=
  let fk := match from_keys with | none => keys b | some l => l
  if !contains b key then []
  else
    match get_locationD b key with
    | .ok ll => find_near_location hav b ll radius (some fk)
    | .error _ => []

/-- Python's ordering on the `(dist, key)` tuples consumed by
`heapq.nsmallest`: lexicographic, distance first, key as tie-break. -/
def tupleLE (a b : ℚ × String) : Prop :=
  a.1 < b.1 ∨ (a.1 = b.1 ∧ a.2 ≤ b.2)

instance tupleLE.decRel : DecidableRel tupleLE := fun a b =>
  inferInstanceAs (Decidable (a.1 < b.1 ∨ (a.1 = b.1 ∧ a.2 ≤ b.2)))

instance tupleLE.total : IsTotal (ℚ × String) tupleLE where
  total a b := by
    rcases lt_trichotomy a.1 b.1 with h | h | h
    · exact Or.inl (Or.inl h)
    · rcases le_total a.2 b.2 with h2 | h2
      · exact Or.inl (Or.inr ⟨h, h2⟩)
      · exact Or.inr (Or.inr ⟨h.symm, h2⟩)
    · exact Or.inr (Or.inl h)

instance tupleLE.trans : IsTrans (ℚ × String) tupleLE where
  trans a b c hab hbc := by
    rcases hab with h1 | ⟨e1, l1⟩
    · rcases hbc with h2 | ⟨e2, _⟩
      · exact Or.inl (h1.trans h2)
      · exact Or.inl (e2 ▸ h1)
    · rcases hbc with h2 | ⟨e2, l2⟩
      · exact Or.inl (e1 ▸ h2)
      · exact Or.inr ⟨e1.trans e2, l1.trans l2⟩

/-- Python `heapq.nsmallest(N, iterable)`, which by its documented
contract is `sorted(iterable)[:n]` under the tuple order. -/
def nsmallest (n : Nat) (l : List (ℚ × String)) : List (ℚ × String) :=
  (l.insertionSort tupleLE).take n

/-- Python `NeoBase.find_closest_from_location(lat_lng, N, from_keys)`:
the `N` smallest `(dist, key)` pairs under the tuple order. -/
def find_closest_from_location (hav : LatLng → LatLng → ℚ) (b : Store)
    (lat_lng : Option LatLng) (n : Nat) (from_keys : Option (List String)) :
    List (ℚ × String) :=
  let fk := match from_keys with | none => keys b | some l => l
  nsmallest n (_build_distances hav b lat_lng fk)

/-- Python `NeoBase.find_closest_from(key, N, from_keys)`: soft-fails to
the empty result on an unknown reference key, else delegates to
`find_closest_from_location` on the key's (possibly `None`) geocode. -/
def find_closest_from (hav : LatLng → LatLng → ℚ) (b : Store)
    (key : Option String) (n : Nat) (from_keys : Option (List String)) :
    List (ℚ × String) :=
  let fk := match from_keys with | none => keys b | some l => l
  if !contains b key then []
  else
    match get_locationD b key with
    | .ok ll => find_closest_from_location hav b ll n (some fk)
    | .error _ => []

/-- Row hypotheses for the duplicate-structure theorems: the row's key
column holds `K`, the row is not a comment, is not excluded by the date
filter, and has enough columns for the schema. -/
def goodRow (K date : String) (row : Row) : Prop :=
  row.head? = some K ∧ K ≠ "" ∧ pyStartsWith K "#" = false ∧
    skip row date = some false ∧ (buildRecord row).isOk = true

instance goodRow.dec (K date : String) (row : Row) : Decidable (goodRow K date row) :=
  inferInstanceAs (Decidable (row.head? = some K ∧ K ≠ "" ∧ pyStartsWith K "#" = false ∧
    skip row date = some false ∧ (buildRecord row).isOk = true))

/-- Invariant of the load loop over rows that all carry the key `K`,
after `j ≥ 1` of them have been processed: the original slot `K` lists
all synthesized keys `K@1 … K@(j-1)`, the duplicate slot `K@i` lists
`K` and exactly the duplicates synthesized before it, and no other key
is present. -/
def Inv (K : String) (j : Nat) (data : Store) : Prop :=
  (∃ r0, Dict.get? data K = some r0 ∧
      Record.dup r0 = (Finset.Ico 1 j).image (dupKey K)) ∧
  (∀ i, 1 ≤ i → i < j → ∃ ri, Dict.get? data (dupKey K i) = some ri ∧
      Record.dup ri = insert K ((Finset.Ico 1 i).image (dupKey K))) ∧
  (∀ s, s ≠ K → (∀ i, 1 ≤ i → i < j → s ≠ dupKey K i) →
      Dict.get? data s = none)

end NeoBase

/-- Sample row with the key in column 0 and everything else blank. -/
def stdRow (key : String) : Row :=
  (List.range 47).map fun c => if c = 0 then key else ""

/-- Sample row with a key, a latitude (column 8) and a longitude
(column 9). -/
def geoRow (key lat lng : String) : Row :=
  (List.range 47).map fun c =>
    if c = 0 then key else if c = 8 then lat else if c = 9 then lng else ""

/-- Sample row with a key and a valid-until date (column 14). -/
def untilRow (key u : String) : Row :=
  (List.range 47).map fun c => if c = 0 then key else if c = 14 then u else ""

/-- Header row, unconditionally consumed by `load`. -/
def hdrRow : Row := ["iata_code"]

/-- Three data rows sharing the key NCE. -/
def nceBody : List Row := [stdRow "NCE", stdRow "NCE", stdRow "NCE"]

/-- A file: header plus three rows sharing the key NCE. -/
def nceRows : List Row := hdrRow :: nceBody

/-- Duplicate set of the record at `k` in a load result (empty when the
load failed or the key is absent). -/
def dupOf (st : Except PyErr Store) (k : String) : Finset String :=
  match st with
  | .ok data =>
    match Dict.get? data k with
    | some r => NeoBase.Record.dup r
    | none => ∅
  | .error _ => ∅

/-- Concrete instantiation of the abstracted haversine core, used by the
witnesses: the taxicab distance on coordinates. -/
def havW : LatLng → LatLng → ℚ := fun a b => |a.1 - b.1| + |a.2 - b.2|

/-- Sample record with a parseable geocode. -/
def recA : Record := [("__dup__", .strset ∅), ("lat", .str "1.5"), ("lng", .str "2.5")]

/-- Sample record whose latitude does not parse as a float. -/
def recB : Record := [("__dup__", .strset ∅), ("lat", .str "xx"), ("lng", .str "3")]

/-- Sample store: AAA has a usable geocode, BBB does not. -/
def stGeo : Store := [("AAA", recA), ("BBB", recB)]

/-- Sample record with an integral geocode. -/
def recC : Record := [("__dup__", .strset ∅), ("lat", .str "3"), ("lng", .str "4")]

/-- Sample store with two usable geocodes. -/
def stGeo2 : Store := [("AAA", recA), ("CCC", recC)]

/-
Helper lemmas: decimal representation, dictionary operations, duplicate
sets.
-/

theorem toDigitsCore_acc (b : Nat) :
    ∀ (f n : Nat) (ds : List Char),
      Nat.toDigitsCore b f n ds = Nat.toDigitsCore b f n [] ++ ds := by
  intro f
  induction f with
  | zero => intro n ds; simp [Nat.toDigitsCore]
  | succ f ih =>
    intro n ds
    simp only [Nat.toDigitsCore]
    by_cases h : n / b = 0
    · simp [h]
    · simp only [h, if_false]
      rw [ih (n / b) (Nat.digitChar (n % b) :: ds), ih (n / b) [Nat.digitChar (n % b)]]
      simp

theorem digitChar_val : ∀ m : Nat, m < 10 → (Nat.digitChar m).toNat - 48 = m := by
  intro m hm
  interval_cases m <;> rfl

theorem digitsToNat_append_singleton (l : List Char) (c : Char) :
    digitsToNat (l ++ [c]) = 10 * digitsToNat l + (c.toNat - 48) := by
  simp [digitsToNat, List.foldl_append]

theorem digitsToNat_toDigitsCore :
    ∀ (n f : Nat), n < f → digitsToNat (Nat.toDigitsCore 10 f n []) = n := by
  intro n
  induction n using Nat.strong_induction_on with
  | _ n IH =>
    intro f hf
    match f, hf with
    | f + 1, hf =>
      simp only [Nat.toDigitsCore]
      by_cases h : n / 10 = 0
      · simp only [h, if_true]
        have hn : n < 10 := by omega
        simp [digitsToNat, digitChar_val n hn, Nat.mod_eq_of_lt hn]
      · simp only [h, if_false]
        rw [toDigitsCore_acc, digitsToNat_append_singleton]
        have hlt : n / 10 < n := Nat.div_lt_self (by omega) (by omega)
        rw [IH (n / 10) hlt f (by omega)]
        rw [digitChar_val (n % 10) (Nat.mod_lt _ (by omega))]
        omega

theorem natRepr_injective : Function.Injective Nat.repr := by
  intro m n h
  have hd : Nat.toDigits 10 m = Nat.toDigits 10 n := by
    have := congrArg String.data h
    simpa [Nat.repr, List.asString] using this
  have hm := digitsToNat_toDigitsCore m (m + 1) (by omega)
  have hn := digitsToNat_toDigitsCore n (n + 1) (by omega)
  simp only [Nat.toDigits] at hd
  rw [hd] at hm
  rw [hn] at hm
  exact hm.symm

theorem toDigits_ne_nil (n : Nat) : Nat.toDigits 10 n ≠ [] := by
  rw [Nat.toDigits]
  simp only [Nat.toDigitsCore]
  by_cases h : n / 10 = 0
  · simp [h]
  · simp only [h, if_false]
    rw [toDigitsCore_acc]
    simp

theorem natRepr_length_pos (n : Nat) : 1 ≤ (Nat.repr n).length := by
  rw [Nat.repr]
  have := toDigits_ne_nil n
  cases hc : Nat.toDigits 10 n with
  | nil => exact absurd hc this
  | cons c t => simp [hc, List.asString, String.length]

namespace NeoBase

theorem dupKey_ne_self (K : String) (n : Nat) : dupKey K n ≠ K := by
  intro h
  have := congrArg String.length h
  rw [dupKey] at this
  simp only [String.length_append] at this
  have h1 := natRepr_length_pos n
  have h2 : ("@" : String).length = 1 := rfl
  omega

theorem dupKey_injective (K : String) : Function.Injective (dupKey K) := by
  intro m n h
  rw [dupKey, dupKey] at h
  have hd := congrArg String.data h
  simp only [String.data_append] at hd
  have hr : (Nat.repr m).data = (Nat.repr n).data :=
    List.append_cancel_left hd
  have : Nat.repr m = Nat.repr n := by
    cases hm : Nat.repr m with
    | mk dm =>
      cases hn : Nat.repr n with
      | mk dn =>
        rw [hm, hn] at hr
        exact congrArg String.mk (by simpa using hr)
  exact natRepr_injective this

theorem Dict.get?_set_self {β : Type} (d : Dict β) (k : String) (v : β) :
    Dict.get? (Dict.set d k v) k = some v := by
  induction d with
  | nil => simp [Dict.set, Dict.get?]
  | cons a t ih =>
    by_cases h : a.1 = k
    · simp [Dict.set, Dict.get?, h]
    · simp [Dict.set, Dict.get?, h, ih]

theorem Dict.get?_set_ne {β : Type} (d : Dict β) (k k' : String) (v : β)
    (h : k' ≠ k) : Dict.get? (Dict.set d k v) k' = Dict.get? d k' := by
  induction d with
  | nil =>
    simp only [Dict.set, Dict.get?]
    rw [if_neg (fun e : k = k' => h e.symm)]
  | cons a t ih =>
    obtain ⟨ka, va⟩ := a
    simp only [Dict.set]
    by_cases ha : ka = k
    · rw [if_pos ha]
      simp only [Dict.get?]
      have hne : ¬ka = k' := by rw [ha]; exact fun e => h e.symm
      rw [if_neg hne, if_neg hne]
    · rw [if_neg ha]
      simp only [Dict.get?]
      by_cases hb : ka = k'
      · rw [if_pos hb, if_pos hb]
      · rw [if_neg hb, if_neg hb, ih]

theorem Record.dup_set_dup (r : Record) (s : Finset String) :
    Record.dup (Dict.set r "__dup__" (.strset s)) = s := by
  rw [Record.dup, Dict.get?_set_self]

theorem Record.dup_set_ne (r : Record) (f : String) (v : Value)
    (h : f ≠ "__dup__") : Record.dup (Dict.set r f v) = Record.dup r := by
  rw [Record.dup, Dict.get?_set_ne _ _ _ _ (fun e => h e.symm), Record.dup]

theorem Record.dup_empty_value : Record.dup empty_value = ∅ := rfl

end NeoBase

/-- Inversion of a successful `Except` bind. -/
theorem exceptBind_ok {ε α β : Type} (x : Except ε α) (f : α → Except ε β) (b : β)
    (h : x >>= f = .ok b) : ∃ a, x = .ok a ∧ f a = .ok b := by
  cases x with
  | error e => exact Except.noConfusion h
  | ok a => exact ⟨a, rfl, h⟩

namespace NeoBase

theorem buildStep_dup (row : Row) (d r : Record)
    (fcs : String × Nat × (String → Except PyErr Value)) (hf : fcs.1 ≠ "__dup__")
    (h : buildStep row d fcs = .ok r) : Record.dup r = Record.dup d := by
  rw [buildStep] at h
  split at h
  · exact Except.noConfusion h
  · obtain ⟨v, _, hpure⟩ := exceptBind_ok _ _ _ h
    injection hpure with hpure
    rw [← hpure]
    exact Record.dup_set_ne d fcs.1 v hf

theorem foldlM_buildStep_dup :
    ∀ (fields : List (String × Nat × (String → Except PyErr Value)))
      (row : Row) (d r : Record),
      (∀ fc ∈ fields, fc.1 ≠ "__dup__") →
      fields.foldlM (buildStep row) d = .ok r →
      Record.dup r = Record.dup d := by
  intro fields
  induction fields with
  | nil =>
    intro row d r _ h
    injection h with h
    rw [← h]
  | cons fc t ih =>
    intro row d r hne h
    rw [List.foldlM_cons] at h
    obtain ⟨d1, hs, hrest⟩ := exceptBind_ok _ _ _ h
    rw [ih row d1 r (fun x hx => hne x (List.mem_cons_of_mem _ hx)) hrest,
      buildStep_dup row d d1 fc (hne fc (List.mem_cons_self _ _)) hs]

theorem buildRecord_dup (row : Row) (r : Record) (h : buildRecord row = .ok r) :
    Record.dup r = ∅ := by
  rw [buildRecord] at h
  rw [foldlM_buildStep_dup FIELDS row empty_value r (by decide) h]
  rfl

theorem loadStep_inv (K date : String) (j : Nat) (hj : 1 ≤ j) (data : Store)
    (hInv : Inv K j data) (row : Row) (hrow : goodRow K date row) :
    ∃ data2, loadStep true date data row = .ok data2 ∧ Inv K (j + 1) data2 := by
  obtain ⟨⟨r0, hr0, hdup0⟩, hmid, hnone⟩ := hInv
  obtain ⟨hhead, hK, hcom, hskip, hbuild⟩ := hrow
  match row, hhead with
  | [], hhead => exact absurd hhead (by simp)
  | K0 :: t, hhead =>
    have hK0 : K0 = K := by simpa using hhead
    subst hK0
    obtain ⟨r, hr⟩ : ∃ r, buildRecord (K0 :: t) = .ok r := by
      cases hb : buildRecord (K0 :: t) with
      | ok r => exact ⟨r, rfl⟩
      | error e => rw [hb] at hbuild; exact absurd hbuild (by simp [Except.isOk, Except.toBool])
    rw [loadStep]
    simp only [hcom, Bool.false_eq_true, if_false, hskip]
    rw [if_neg hK]
    rw [hr0]
    simp only [Option.isSome_some, Bool.not_true, Bool.and_false, Bool.false_eq_true, if_false]
    rw [hr]
    have hcard : 1 + (Record.dup r0).card = j := by
      rw [hdup0, Finset.card_image_of_injective _ (dupKey_injective K0), Nat.card_Ico]
      omega
    refine ⟨_, rfl, ?_, ?_, ?_⟩
    · -- the original slot now lists all j synthesized keys
      refine ⟨_, Dict.get?_set_self _ _ _, ?_⟩
      rw [hcard, Record.dup_set_dup, hdup0]
      have hico : Finset.Ico 1 (j + 1) = insert j (Finset.Ico 1 j) := by
        ext x
        simp only [Finset.mem_Ico, Finset.mem_insert]
        omega
      rw [hico, Finset.image_insert]
    · -- each duplicate slot lists the original and the earlier duplicates
      intro i h1 hij1
      by_cases hi : i = j
      · subst hi
        rw [hcard]
        refine ⟨Dict.set r "__dup__" (.strset (Record.dup r0 ∪ {K0})), ?_, ?_⟩
        · rw [Dict.get?_set_ne _ _ _ _ (dupKey_ne_self K0 i), Dict.get?_set_self]
        · rw [Record.dup_set_dup, hdup0, Finset.union_comm, ← Finset.insert_eq]
      · have hlt : i < j := by omega
        obtain ⟨ri, hri, hdupi⟩ := hmid i h1 hlt
        refine ⟨ri, ?_, hdupi⟩
        rw [hcard, Dict.get?_set_ne _ _ _ _ (dupKey_ne_self K0 i),
          Dict.get?_set_ne _ _ _ _ (fun e => hi (dupKey_injective K0 e))]
        exact hri
    · -- no other key is present
      intro s hsK hsi
      have h1 : s ≠ dupKey K0 j := hsi j hj (by omega)
      rw [hcard, Dict.get?_set_ne _ _ _ _ hsK, Dict.get?_set_ne _ _ _ _ h1]
      exact hnone s hsK (fun i hi1 hij => hsi i hi1 (by omega))

theorem foldlM_loadStep_inv (K date : String) :
    ∀ (L : List Row) (data : Store) (j : Nat), 1 ≤ j → Inv K j data →
      (∀ row ∈ L, goodRow K date row) →
      ∃ data2, L.foldlM (loadStep true date) data = .ok data2 ∧
        Inv K (j + L.length) data2 := by
  intro L
  induction L with
  | nil =>
    intro data j hj hInv _
    exact ⟨data, rfl, by simpa using hInv⟩
  | cons row L ih =>
    intro data j hj hInv hrows
    obtain ⟨d1, hd1, hInv1⟩ := loadStep_inv K date j hj data hInv row (hrows row (by simp))
    rw [List.foldlM_cons, hd1]
    obtain ⟨d2, hd2, hInv2⟩ :=
      ih d1 (j + 1) (by omega) hInv1 (fun x hx => hrows x (by simp [hx]))
    refine ⟨d2, hd2, ?_⟩
    have heq : j + (row :: L).length = j + 1 + L.length := by
      simp only [List.length_cons]
      omega
    rw [heq]
    exact hInv2

theorem loadStep_first (K date : String) (row : Row) (hrow : goodRow K date row) :
    ∃ r, loadStep true date [] row = .ok [(K, r)] ∧ Record.dup r = ∅ := by
  obtain ⟨hhead, hK, hcom, hskip, hbuild⟩ := hrow
  match row, hhead with
  | [], hhead => exact absurd hhead (by simp)
  | K0 :: t, hhead =>
    have hK0 : K0 = K := by simpa using hhead
    subst hK0
    obtain ⟨r, hr⟩ : ∃ r, buildRecord (K0 :: t) = .ok r := by
      cases hb : buildRecord (K0 :: t) with
      | ok r => exact ⟨r, rfl⟩
      | error e =>
        rw [hb] at hbuild
        exact absurd hbuild (by simp [Except.isOk, Except.toBool])
    rw [loadStep]
    simp only [hcom, Bool.false_eq_true, if_false, hskip]
    rw [if_neg hK]
    simp only [Dict.get?, Option.isSome_none, Bool.false_and, Bool.false_eq_true, if_false]
    rw [hr]
    exact ⟨r, rfl, buildRecord_dup _ _ hr⟩

end NeoBase

/-- Claim C1 (amended).  After loading any nonempty sequence of rows all
carrying one key `K` in keep-all duplicate mode, the records form a
chain rather than a clique: the original record's `duplicate_keys` is
exactly the set of all synthesized keys `K@1 … K@(n-1)`; the `i`-th
synthesized record's `duplicate_keys` is exactly `{K, K@1, …, K@(i-1)}`
(the original key plus the duplicates created before it, so a later
duplicate is never listed by an earlier one); no other key is present;
and no record's `duplicate_keys` contains its own key. -/
theorem neobase_C1_dup_chain (K date : String) (hdr : Row) (L : List Row)
    (hne : L ≠ []) (hrows : ∀ row ∈ L, NeoBase.goodRow K date row) :
    ∃ data, NeoBase.load (hdr :: L) date true = .ok data ∧
      (∃ r0, Dict.get? data K = some r0 ∧
        NeoBase.Record.dup r0 = (Finset.Ico 1 L.length).image (NeoBase.dupKey K)) ∧
      (∀ i, 1 ≤ i → i < L.length →
        ∃ ri, Dict.get? data (NeoBase.dupKey K i) = some ri ∧
          NeoBase.Record.dup ri =
            insert K ((Finset.Ico 1 i).image (NeoBase.dupKey K))) ∧
      (∀ s, s ≠ K → (∀ i, 1 ≤ i → i < L.length → s ≠ NeoBase.dupKey K i) →
        Dict.get? data s = none) ∧
      (∀ s r, Dict.get? data s = some r → s ∉ NeoBase.Record.dup r) := by
  match L, hne with
  | row :: Lt, _ =>
    rw [NeoBase.load]
    simp only [List.drop_succ_cons, List.drop_zero]
    rw [List.foldlM_cons]
    obtain ⟨r1, hstep, hdup1⟩ :=
      NeoBase.loadStep_first K date row (hrows row (by simp))
    rw [hstep]
    have hInv1 : NeoBase.Inv K 1 [(K, r1)] := by
      refine ⟨⟨r1, ?_, ?_⟩, ?_, ?_⟩
      · simp [Dict.get?]
      · rw [hdup1]
        simp
      · intro i h1 hi1
        omega
      · intro s hsK _
        simp only [Dict.get?]
        rw [if_neg (fun e : K = s => hsK e.symm)]
    obtain ⟨data, hfold, hInv⟩ :=
      NeoBase.foldlM_loadStep_inv K date Lt [(K, r1)] 1 (by omega) hInv1
        (fun x hx => hrows x (by simp [hx]))
    rw [show (1 : Nat) + Lt.length = (row :: Lt).length by
      simp only [List.length_cons]; omega] at hInv
    obtain ⟨⟨r0, hr0, hdup0⟩, hmid, hnone⟩ := hInv
    refine ⟨data, hfold, ⟨r0, hr0, hdup0⟩, hmid, hnone, ?_⟩
    intro s r hs
    by_cases hsK : s = K
    · subst hsK
      rw [hr0] at hs
      injection hs with hs
      rw [← hs, hdup0]
      intro hmem
      obtain ⟨i, _, hcontra⟩ := Finset.mem_image.mp hmem
      exact NeoBase.dupKey_ne_self s i hcontra
    · by_cases hdup : ∃ i, 1 ≤ i ∧ i < (row :: Lt).length ∧ s = NeoBase.dupKey K i
      · obtain ⟨i, hi1, hilen, hsi⟩ := hdup
        obtain ⟨ri, hri, hdupi⟩ := hmid i hi1 hilen
        rw [hsi] at hs ⊢
        rw [hri] at hs
        injection hs with hs
        rw [← hs, hdupi]
        intro hmem
        rcases Finset.mem_insert.mp hmem with h | h
        · exact NeoBase.dupKey_ne_self K i h
        · obtain ⟨j, hj, hcontra⟩ := Finset.mem_image.mp h
          have : j = i := NeoBase.dupKey_injective K hcontra
          rw [this] at hj
          simp only [Finset.mem_Ico] at hj
          omega
      · push_neg at hdup
        rw [hnone s hsK (fun i h1 h2 => hdup i h1 h2)] at hs
        exact Option.noConfusion hs

theorem charLt_iff (a b : Char) : a.toNat < b.toNat ↔ a < b := by
  rw [Char.lt_iff_val_lt_val, UInt32.lt_def, BitVec.lt_def]
  exact Iff.rfl

theorem charListLt_iff : ∀ l1 l2 : List Char, charListLt l1 l2 = true ↔ l1 < l2 := by
  intro l1
  induction l1 with
  | nil =>
    intro l2
    cases l2 with
    | nil =>
      simp only [charListLt, Bool.false_eq_true, false_iff]
      exact fun h => nomatch h
    | cons b bs =>
      simp only [charListLt, true_iff]
      exact List.Lex.nil
  | cons a as ih =>
    intro l2
    cases l2 with
    | nil =>
      simp only [charListLt, Bool.false_eq_true, false_iff]
      exact fun h => nomatch h
    | cons b bs =>
      rw [charListLt]
      by_cases h1 : a.toNat < b.toNat
      · simp only [h1, if_true, true_iff]
        exact List.Lex.rel ((charLt_iff a b).mp h1)
      · by_cases h2 : b.toNat < a.toNat
        · simp only [h1, h2, if_false, if_true, Bool.false_eq_true, false_iff]
          intro h
          cases h with
          | cons htail => exact Nat.lt_irrefl _ h2
          | rel hab => exact h1 ((charLt_iff a b).mpr hab)
        · have h3 : a.toNat = b.toNat := by omega
          have hab : a = b := Char.ext (UInt32.ext h3)
          subst hab
          simp only [h1, h2, if_false, ih bs]
          constructor
          · intro h
            exact List.Lex.cons h
          · intro h
            cases h with
            | cons htail => exact htail
            | rel haa => exact absurd ((charLt_iff a a).mpr haa) h1

/-- Python string comparison agrees with Lean's lexicographic order on
`String`. -/
theorem pyStrLt_iff (s t : String) : pyStrLt s t = true ↔ s < t := by
  rw [pyStrLt, charListLt_iff, String.lt_iff_toList_lt]
  exact Iff.rfl

/-- Claim C1, counterexample: with three rows sharing the key NCE loaded
in keep-all mode, the cross-references are not symmetric — NCE@1 is in
NCE@2's duplicate_keys, but NCE@2 is not in NCE@1's, so the records do
not form a fully-connected clique. -/
theorem neobase_C1_counterexample :
    "NCE@1" ∈ dupOf (NeoBase.load nceRows "2020-01-01" true) "NCE@2" ∧
    "NCE@2" ∉ dupOf (NeoBase.load nceRows "2020-01-01" true) "NCE@1" := by
  decide

/-- Witness for the amended claim C1: the chain structure at the
concrete three-row NCE input. -/
theorem neobase_C1_dup_chain_witness :
    (∀ row ∈ nceBody, NeoBase.goodRow "NCE" "2020-01-01" row) ∧
    (∃ data, NeoBase.load (hdrRow :: nceBody) "2020-01-01" true = .ok data ∧
      (∃ r0, Dict.get? data "NCE" = some r0 ∧
        NeoBase.Record.dup r0 =
          (Finset.Ico 1 nceBody.length).image (NeoBase.dupKey "NCE")) ∧
      (∀ i, 1 ≤ i → i < nceBody.length →
        ∃ ri, Dict.get? data (NeoBase.dupKey "NCE" i) = some ri ∧
          NeoBase.Record.dup ri =
            insert "NCE" ((Finset.Ico 1 i).image (NeoBase.dupKey "NCE"))) ∧
      (∀ s, s ≠ "NCE" →
        (∀ i, 1 ≤ i → i < nceBody.length → s ≠ NeoBase.dupKey "NCE" i) →
        Dict.get? data s = none) ∧
      (∀ s r, Dict.get? data s = some r → s ∉ NeoBase.Record.dup r)) :=
  ⟨by decide,
    neobase_C1_dup_chain "NCE" "2020-01-01" hdrRow nceBody (by decide) (by decide)⟩

/-- Claim C5, counterexample: after the full three-row NCE load the
first record's duplicate_keys is {NCE@1, NCE@2}, not {NCE@1} as the
claim states. -/
theorem neobase_C5_counterexample :
    dupOf (NeoBase.load nceRows "2020-01-01" true) "NCE" = {"NCE@1", "NCE@2"} ∧
    ({"NCE@1", "NCE@2"} : Finset String) ≠ {"NCE@1"} := by
  decide

/-- Claim C5 (amended).  In keep-all mode a row whose key `K` already
exists is stored under the synthesized key `K@n` with
`n = 1 + (number of prior duplicates already linked to K)`; the new
record's duplicate_keys is the original record's current set plus `K`,
and the original record's set gains the new key.  Concretely, for three
rows sharing "NCE" loaded in order, the second yields key "NCE@1" with
duplicate_keys {"NCE"} and, after the full load, the first record's
duplicate_keys is {"NCE@1", "NCE@2"}. -/
theorem neobase_C5_dup_naming (date K : String) (row : Row)
    (data : Store) (prev : Record)
    (hgood : NeoBase.goodRow K date row)
    (hprev : Dict.get? data K = some prev) :
    (∃ data2, NeoBase.loadStep true date data row = .ok data2 ∧
      (∃ d2, Dict.get? data2
          (NeoBase.dupKey K (1 + (NeoBase.Record.dup prev).card)) = some d2 ∧
        NeoBase.Record.dup d2 = insert K (NeoBase.Record.dup prev)) ∧
      (∃ p2, Dict.get? data2 K = some p2 ∧
        NeoBase.Record.dup p2 =
          insert (NeoBase.dupKey K (1 + (NeoBase.Record.dup prev).card))
            (NeoBase.Record.dup prev))) ∧
    dupOf (NeoBase.load nceRows "2020-01-01" true) "NCE@1" = {"NCE"} ∧
    dupOf (NeoBase.load nceRows "2020-01-01" true) "NCE" = {"NCE@1", "NCE@2"} := by
  refine ⟨?_, by decide, by decide⟩
  obtain ⟨hhead, hK, hcom, hskip, hbuild⟩ := hgood
  match row, hhead with
  | [], hhead => exact absurd hhead (by simp)
  | K0 :: t, hhead =>
    have hK0 : K0 = K := by simpa using hhead
    subst hK0
    obtain ⟨r, hr⟩ : ∃ r, NeoBase.buildRecord (K0 :: t) = .ok r := by
      cases hb : NeoBase.buildRecord (K0 :: t) with
      | ok r => exact ⟨r, rfl⟩
      | error e =>
        rw [hb] at hbuild
        exact absurd hbuild (by simp [Except.isOk, Except.toBool])
    rw [NeoBase.loadStep]
    simp only [hcom, Bool.false_eq_true, if_false, hskip]
    rw [if_neg hK]
    rw [hprev]
    simp only [Option.isSome_some, Bool.not_true, Bool.and_false, Bool.false_eq_true, if_false]
    rw [hr]
    refine ⟨_, rfl, ?_, ?_⟩
    · refine ⟨Dict.set r "__dup__" (.strset (NeoBase.Record.dup prev ∪ {K0})), ?_, ?_⟩
      · rw [NeoBase.Dict.get?_set_ne _ _ _ _ (NeoBase.dupKey_ne_self K0 _),
          NeoBase.Dict.get?_set_self]
      · rw [NeoBase.Record.dup_set_dup, Finset.union_comm, ← Finset.insert_eq]
    · refine ⟨Dict.set prev "__dup__"
        (.strset (insert (NeoBase.dupKey K0 (1 + (NeoBase.Record.dup prev).card))
          (NeoBase.Record.dup prev))), NeoBase.Dict.get?_set_self _ _ _, ?_⟩
      rw [NeoBase.Record.dup_set_dup]

/-- Claim C4: during load a row is excluded by the date filter exactly
when its valid-from column (13) is non-empty and the reference date is
lexicographically less than it, or its valid-until column (14) is
non-empty and the reference date is lexicographically greater than it.
Concretely, a row with valid-until "2015-01-01" is excluded for
reference date "2020-01-01" and included for "2012-01-01". -/
theorem neobase_C4_date_filter (row : Row) (date df du : String)
    (hdf : row.get? 13 = some df) (hdu : row.get? 14 = some du) :
    (NeoBase.skip row date = some true ↔
      ((df ≠ "" ∧ date < df) ∨ (du ≠ "" ∧ du < date))) ∧
    (NeoBase.skip row date = some false ↔
      ¬((df ≠ "" ∧ date < df) ∨ (du ≠ "" ∧ du < date))) ∧
    (NeoBase.load [hdrRow, untilRow "NCE" "2015-01-01"] "2020-01-01" true).map
      (fun st => (Dict.get? st "NCE").isSome) = .ok false ∧
    (NeoBase.load [hdrRow, untilRow "NCE" "2015-01-01"] "2012-01-01" true).map
      (fun st => (Dict.get? st "NCE").isSome) = .ok true := by
  have hmain : NeoBase.skip row date =
      (if df ≠ "" ∧ pyStrLt date df = true then some true
       else if du ≠ "" ∧ pyStrLt du date = true then some true else some false) := by
    rw [NeoBase.skip, hdf, hdu]
    rfl
  refine ⟨?_, ?_, by decide, by decide⟩
  · rw [hmain]
    split_ifs with h1 h2
    · constructor
      · intro _
        exact Or.inl ⟨h1.1, (pyStrLt_iff date df).mp h1.2⟩
      · intro _
        rfl
    · constructor
      · intro _
        exact Or.inr ⟨h2.1, (pyStrLt_iff du date).mp h2.2⟩
      · intro _
        rfl
    · constructor
      · intro h
        exact absurd h (by simp)
      · intro h
        rcases h with ⟨hne, hlt⟩ | ⟨hne, hlt⟩
        · exact absurd ⟨hne, (pyStrLt_iff date df).mpr hlt⟩ h1
        · exact absurd ⟨hne, (pyStrLt_iff du date).mpr hlt⟩ h2
  · rw [hmain]
    split_ifs with h1 h2
    · constructor
      · intro h
        exact absurd h (by simp)
      · intro h
        exact absurd (Or.inl ⟨h1.1, (pyStrLt_iff date df).mp h1.2⟩) h
    · constructor
      · intro h
        exact absurd h (by simp)
      · intro h
        exact absurd (Or.inr ⟨h2.1, (pyStrLt_iff du date).mp h2.2⟩) h
    · constructor
      · intro _ h
        rcases h with ⟨hne, hlt⟩ | ⟨hne, hlt⟩
        · exact absurd ⟨hne, (pyStrLt_iff date df).mpr hlt⟩ h1
        · exact absurd ⟨hne, (pyStrLt_iff du date).mpr hlt⟩ h2
      · intro _
        rfl

/-- Witness for claim C4 at a concrete row with valid-until
"2015-01-01" and reference date "2020-01-01". -/
theorem neobase_C4_date_filter_witness :
    (NeoBase.skip (untilRow "NCE" "2015-01-01") "2020-01-01" = some true ↔
      ((("" : String) ≠ "" ∧ ("2020-01-01" : String) < "") ∨
       (("2015-01-01" : String) ≠ "" ∧ ("2015-01-01" : String) < "2020-01-01"))) ∧
    (NeoBase.skip (untilRow "NCE" "2015-01-01") "2020-01-01" = some false ↔
      ¬((("" : String) ≠ "" ∧ ("2020-01-01" : String) < "") ∨
        (("2015-01-01" : String) ≠ "" ∧ ("2015-01-01" : String) < "2020-01-01"))) ∧
    (NeoBase.load [hdrRow, untilRow "NCE" "2015-01-01"] "2020-01-01" true).map
      (fun st => (Dict.get? st "NCE").isSome) = .ok false ∧
    (NeoBase.load [hdrRow, untilRow "NCE" "2015-01-01"] "2012-01-01" true).map
      (fun st => (Dict.get? st "NCE").isSome) = .ok true :=
  neobase_C4_date_filter (untilRow "NCE" "2015-01-01") "2020-01-01" "" "2015-01-01"
    (by decide) (by decide)

namespace NeoBase

theorem get_err {α : Type} (b : Store) (key : Option String)
    (field : Option String) (dflt : Option α) (e : PyErr)
    (h : get b key field dflt = .error e) :
    e = .unknownKeyError ∨ e = .keyError := by
  rw [get.eq_def] at h
  cases hlk : lookupNorm b key with
  | none =>
    rw [hlk] at h
    cases dflt with
    | none =>
      injection h with h
      exact Or.inl h.symm
    | some a => exact Except.noConfusion h
  | some d =>
    rw [hlk] at h
    cases field with
    | none => exact Except.noConfusion h
    | some f =>
      have h2 : (match Dict.get? d f with
          | none => Except.error PyErr.keyError
          | some v => Except.ok (GetRes.field (α := α) v)) = Except.error e := h
      cases hf : Dict.get? d f with
      | none =>
        rw [hf] at h2
        injection h2 with h2
        exact Or.inr h2.symm
      | some v =>
        rw [hf] at h2
        exact Except.noConfusion h2

theorem getField_err (b : Store) (key : Option String) (f : String) (e : PyErr)
    (h : getField b key f = .error e) :
    e = .unknownKeyError ∨ e = .keyError ∨ e = .typeError := by
  rw [getField.eq_def] at h
  cases hg : get b key (some f) (none : Option Empty) with
  | error e2 =>
    rw [hg] at h
    injection h with h
    rcases get_err b key (some f) (none : Option Empty) e2 hg with h2 | h2
    · exact Or.inl (h ▸ h2)
    · exact Or.inr (Or.inl (h ▸ h2))
  | ok gr =>
    rw [hg] at h
    cases gr with
    | record r =>
      injection h with h
      exact Or.inr (Or.inr h.symm)
    | field v => exact Except.noConfusion h
    | dflt a => exact a.elim

theorem pyFloat_err (v : Value) (e : PyErr) (h : pyFloat v = .error e) :
    e = .valueError ∨ e = .typeError := by
  cases v with
  | str s =>
    rw [pyFloat] at h
    cases hp : parseFloat s with
    | some q => rw [hp] at h; exact Except.noConfusion h
    | none =>
      rw [hp] at h
      injection h with h
      exact Or.inl h.symm
  | num q =>
    cases q with
    | none =>
      injection h with h
      exact Or.inr h.symm
    | some q2 => exact Except.noConfusion h
  | list l =>
    injection h with h
    exact Or.inr h.symm
  | strset s =>
    injection h with h
    exact Or.inr h.symm

/-- Inversion of a failed `Except` bind. -/
theorem exceptBind_err {ε α β : Type} (x : Except ε α) (f : α → Except ε β) (e : ε)
    (h : x >>= f = .error e) : x = .error e ∨ ∃ a, x = .ok a ∧ f a = .error e := by
  cases x with
  | error e2 =>
    injection h with h
    exact Or.inl (congrArg Except.error h)
  | ok a => exact Or.inr ⟨a, rfl, h⟩

/-- Every exception escaping the geocode extraction is a `ValueError`,
`TypeError` or `KeyError`, exactly the classes caught by
`get_location`; an `IndexError` cannot occur there. -/
theorem locAttempt_err_caught (b : Store) (key : Option String) (lf lg : String)
    (e : PyErr) (h : locAttempt b key lf lg = .error e) :
    (e.isKeyError || e == .valueError || e == .typeError) = true := by
  have hcls : e = .unknownKeyError ∨ e = .keyError ∨ e = .valueError ∨ e = .typeError := by
    rw [locAttempt.eq_def] at h
    rcases exceptBind_err _ _ _ h with h1 | ⟨lv, hlv, h1⟩
    · rcases getField_err b key lf e h1 with h2 | h2 | h2
      · exact Or.inl h2
      · exact Or.inr (Or.inl h2)
      · exact Or.inr (Or.inr (Or.inr h2))
    · rcases exceptBind_err _ _ _ h1 with h2 | ⟨la, hla, h2⟩
      · rcases pyFloat_err lv e h2 with h3 | h3
        · exact Or.inr (Or.inr (Or.inl h3))
        · exact Or.inr (Or.inr (Or.inr h3))
      · rcases exceptBind_err _ _ _ h2 with h3 | ⟨gv, hgv, h3⟩
        · rcases getField_err b key lg e h3 with h4 | h4 | h4
          · exact Or.inl h4
          · exact Or.inr (Or.inl h4)
          · exact Or.inr (Or.inr (Or.inr h4))
        · rcases exceptBind_err _ _ _ h3 with h4 | ⟨lng, hlng, h4⟩
          · rcases pyFloat_err gv e h4 with h5 | h5
            · exact Or.inr (Or.inr (Or.inl h5))
            · exact Or.inr (Or.inr (Or.inr h5))
          · exact Except.noConfusion h4
  rcases hcls with h1 | h1 | h1 | h1 <;> subst h1 <;> rfl

theorem get_location_of_contains {α : Type} (b : Store) (key : Option String)
    (lf lg : String) (dflt : Option α) (hc : contains b key = true) :
    get_location b key lf lg dflt =
      match locAttempt b key lf lg with
      | .ok ll => .ok (.loc ll)
      | .error _ => .ok .absent := by
  rw [get_location.eq_def, if_pos hc]
  cases hA : locAttempt b key lf lg with
  | ok ll => rfl
  | error e =>
    have hcaught := locAttempt_err_caught b key lf lg e hA
    show (if (e.isKeyError || e == PyErr.valueError || e == PyErr.typeError) = true
        then (Except.ok GeoRes.absent : Except PyErr (GeoRes α))
        else Except.error e) = Except.ok GeoRes.absent
    rw [if_pos hcaught]

theorem get_locationD_of_contains (b : Store) (key : Option String)
    (hc : contains b key = true) :
    get_locationD b key =
      match locAttempt b key "lat" "lng" with
      | .ok ll => .ok (some ll)
      | .error _ => .ok none := by
  rw [get_locationD.eq_def, get_location_of_contains _ _ _ _ _ hc]
  cases locAttempt b key "lat" "lng" <;> rfl

theorem get_locationD_of_not_contains (b : Store) (key : Option String)
    (hc : contains b key = false) :
    get_locationD b key = .error .unknownKeyError := by
  rw [get_locationD.eq_def, get_location.eq_def, if_neg (by simp [hc])]

theorem get_locationD_ok_of_contains (b : Store) (key : Option String)
    (hc : contains b key = true) :
    ∃ o, get_locationD b key = .ok o := by
  rw [get_locationD_of_contains b key hc]
  cases locAttempt b key "lat" "lng" with
  | ok ll => exact ⟨some ll, rfl⟩
  | error e => exact ⟨none, rfl⟩

end NeoBase

/-- Claim C2: `get` raises UnknownKey exactly when the case-normalized
key is absent and no default was supplied; with a default supplied and
the key absent, the default is returned; for a present key whose record
lacks the requested field, a plain KeyError — distinct from UnknownKey —
is raised, and supplying a default does not suppress it. -/
theorem neobase_C2_get_errors {α : Type} (b : Store) (key : Option String)
    (field : Option String) (a : α) (d : Record) (fl : String) :
    (NeoBase.get b key field (none : Option α) = .error .unknownKeyError ↔
      NeoBase.lookupNorm b key = none) ∧
    (NeoBase.lookupNorm b key = none →
      NeoBase.get b key field (some a) = .ok (.dflt a)) ∧
    (NeoBase.lookupNorm b key = some d → Dict.get? d fl = none →
      ∀ dflt : Option α, NeoBase.get b key (some fl) dflt = .error .keyError) ∧
    NeoBase.get b key field (some a) ≠ .error .unknownKeyError ∧
    PyErr.keyError ≠ PyErr.unknownKeyError := by
  refine ⟨?_, ?_, ?_, ?_, by decide⟩
  · cases hlk : NeoBase.lookupNorm b key with
    | none => simp [NeoBase.get, hlk]
    | some d2 =>
      rw [NeoBase.get.eq_def, hlk]
      refine iff_of_false ?_ (by simp)
      cases field with
      | none => simp
      | some f =>
        cases hf : Dict.get? d2 f with
        | none => simp [hf]
        | some v => simp [hf]
  · intro hlk
    simp [NeoBase.get.eq_def, hlk]
  · intro hlk hfl dflt
    simp [NeoBase.get.eq_def, hlk, hfl]
  · rw [NeoBase.get.eq_def]
    cases hlk : NeoBase.lookupNorm b key with
    | none => simp
    | some d2 =>
      cases field with
      | none => simp
      | some f =>
        cases hf : Dict.get? d2 f with
        | none => simp [hf]
        | some v => simp [hf]

/-- Witness for claim C2: unknown key with default returns the default;
present key with missing field raises KeyError despite the default. -/
theorem neobase_C2_get_errors_witness :
    NeoBase.get stGeo (some "ZZZ") (some "name") (some ([1] : List Nat)) =
      .ok (.dflt [1]) ∧
    NeoBase.get stGeo (some "AAA") (some "name") (some ([1] : List Nat)) =
      .error .keyError :=
  ⟨(neobase_C2_get_errors stGeo (some "ZZZ") (some "name") [1] recA "name").2.1
      (by decide),
   (neobase_C2_get_errors stGeo (some "AAA") (some "name") [1] recA "name").2.2.1
      (by decide) (by decide) (some [1])⟩

/-- Claim C3: `get_location` raises UnknownKey exactly on an absent key
with no default (returning the default otherwise); on a present key it
never raises — it returns the geocode when the latitude/longitude
extraction succeeds and Python `None` when it fails, in particular when
the latitude field is missing from the record or its string value does
not parse as a float. -/
theorem neobase_C3_get_location {α : Type} (b : Store) (key : Option String)
    (lf lg : String) (a : α) (d : Record) :
    (NeoBase.contains b key = false →
      NeoBase.get_location b key lf lg (none : Option α) = .error .unknownKeyError ∧
      NeoBase.get_location b key lf lg (some a) = .ok (.dflt a)) ∧
    (NeoBase.contains b key = true →
      ∀ dflt : Option α,
        (∀ e, NeoBase.get_location b key lf lg dflt ≠ .error e) ∧
        (NeoBase.get_location b key lf lg dflt = .ok .absent ↔
          ∀ ll, NeoBase.locAttempt b key lf lg ≠ .ok ll) ∧
        (∀ ll, NeoBase.locAttempt b key lf lg = .ok ll →
          NeoBase.get_location b key lf lg dflt = .ok (.loc ll))) ∧
    (NeoBase.lookupNorm b key = some d → Dict.get? d lf = none →
      ∀ dflt : Option α, NeoBase.get_location b key lf lg dflt = .ok .absent) ∧
    (NeoBase.lookupNorm b key = some d → ∀ s, Dict.get? d lf = some (.str s) →
      parseFloat s = none →
      ∀ dflt : Option α, NeoBase.get_location b key lf lg dflt = .ok .absent) := by
  have hloc : ∀ (dflt : Option α), NeoBase.contains b key = true →
      NeoBase.get_location b key lf lg dflt =
        match NeoBase.locAttempt b key lf lg with
        | .ok ll => .ok (.loc ll)
        | .error _ => .ok .absent :=
    fun dflt hc => NeoBase.get_location_of_contains b key lf lg dflt hc
  refine ⟨?_, ?_, ?_, ?_⟩
  · intro hc
    constructor
    · rw [NeoBase.get_location.eq_def, if_neg (by simp [hc])]
    · rw [NeoBase.get_location.eq_def, if_neg (by simp [hc])]
  · intro hc dflt
    rw [hloc dflt hc]
    cases hA : NeoBase.locAttempt b key lf lg with
    | ok ll =>
      refine ⟨by simp, iff_of_false (by simp) ?_, ?_⟩
      · intro hnone
        exact hnone ll rfl
      · intro ll2 hll2
        injection hll2 with h
        subst h
        rfl
    | error e =>
      refine ⟨by simp, iff_of_true rfl ?_, ?_⟩
      · intro ll hll
        exact Except.noConfusion hll
      · intro ll2 hll2
        exact Except.noConfusion hll2
  · intro hlk hfl dflt
    have hcont : NeoBase.contains b key = true := by
      rw [NeoBase.contains, hlk]
      rfl
    have hgf : NeoBase.getField b key lf = .error .keyError := by
      simp [NeoBase.getField.eq_def, NeoBase.get.eq_def, hlk, hfl]
    have hla : NeoBase.locAttempt b key lf lg = .error .keyError := by
      rw [NeoBase.locAttempt.eq_def, hgf]
      rfl
    rw [hloc dflt hcont, hla]
  · intro hlk s hfl hparse dflt
    have hcont : NeoBase.contains b key = true := by
      rw [NeoBase.contains, hlk]
      rfl
    have hgf : NeoBase.getField b key lf = .ok (.str s) := by
      simp [NeoBase.getField.eq_def, NeoBase.get.eq_def, hlk, hfl]
    have hpf : pyFloat (.str s) = .error .valueError := by
      rw [pyFloat, hparse]
    have hla : NeoBase.locAttempt b key lf lg = .error .valueError := by
      rw [NeoBase.locAttempt.eq_def, hgf]
      show (pyFloat (.str s) >>= fun lat =>
        NeoBase.getField b key lg >>= fun gv =>
          pyFloat gv >>= fun lng => pure (lat, lng)) = Except.error PyErr.valueError
      rw [hpf]
      rfl
    rw [hloc dflt hcont, hla]

/-- Witness for claim C3: an absent key raises or returns the default;
a present key with an unparseable latitude yields Python `None`. -/
theorem neobase_C3_get_location_witness :
    (NeoBase.get_location stGeo (some "ZZZ") "lat" "lng" (none : Option Nat) =
        .error .unknownKeyError ∧
      NeoBase.get_location stGeo (some "ZZZ") "lat" "lng" (some 5) = .ok (.dflt 5)) ∧
    NeoBase.get_location stGeo (some "BBB") "lat" "lng" (some (5 : Nat)) =
      .ok .absent :=
  ⟨(neobase_C3_get_location stGeo (some "ZZZ") "lat" "lng" (5 : Nat) recB).1
      (by decide),
   (neobase_C3_get_location stGeo (some "BBB") "lat" "lng" (5 : Nat) recB).2.2.2
      (by decide) "xx" (by decide) (by decide) (some 5)⟩

/-- Witness for the amended claim C5 at a concrete colliding row. -/
theorem neobase_C5_dup_naming_witness :
    (NeoBase.goodRow "NCE" "2020-01-01" (stdRow "NCE") ∧
      Dict.get? [("NCE", recA)] "NCE" = some recA) ∧
    ((∃ data2,
        NeoBase.loadStep true "2020-01-01" [("NCE", recA)] (stdRow "NCE") = .ok data2 ∧
        (∃ d2, Dict.get? data2
            (NeoBase.dupKey "NCE" (1 + (NeoBase.Record.dup recA).card)) = some d2 ∧
          NeoBase.Record.dup d2 = insert "NCE" (NeoBase.Record.dup recA)) ∧
        (∃ p2, Dict.get? data2 "NCE" = some p2 ∧
          NeoBase.Record.dup p2 =
            insert (NeoBase.dupKey "NCE" (1 + (NeoBase.Record.dup recA).card))
              (NeoBase.Record.dup recA))) ∧
      dupOf (NeoBase.load nceRows "2020-01-01" true) "NCE@1" = {"NCE"} ∧
      dupOf (NeoBase.load nceRows "2020-01-01" true) "NCE" = {"NCE@1", "NCE@2"}) :=
  ⟨⟨by decide, by decide⟩,
   neobase_C5_dup_naming "2020-01-01" "NCE" (stdRow "NCE") [("NCE", recA)] recA
     (by decide) (by decide)⟩


namespace NeoBase

theorem mem_build_distances (hav : LatLng → LatLng → ℚ) (b : Store) (ref : LatLng)
    (keysArg : List String) (d : ℚ) (k : String) :
    (d, k) ∈ _build_distances hav b (some ref) keysArg ↔
      k ∈ keysArg ∧ contains b (some k) = true ∧
        ∃ ll, get_locationD b (some k) = .ok (some ll) ∧ d = hav ref ll := by
  rw [_build_distances]
  simp only [List.mem_filterMap]
  constructor
  · rintro ⟨k0, hk0, hf⟩
    by_cases hc : contains b (some k0) = true
    · rw [if_pos hc] at hf
      cases hg : get_locationD b (some k0) with
      | ok o =>
        cases o with
        | some ll =>
          rw [hg] at hf
          simp only [distance_between_locations, Option.map_some] at hf
          injection hf with hf
          obtain ⟨hd, hk⟩ := Prod.mk.inj hf
          subst hk
          exact ⟨hk0, hc, ll, hg, hd.symm⟩
        | none =>
          rw [hg] at hf
          exact absurd hf (by simp)
      | error e =>
        rw [hg] at hf
        exact absurd hf (by simp)
    · rw [if_neg hc] at hf
      exact absurd hf (by simp)
  · rintro ⟨hk, hc, ll, hll, hd⟩
    refine ⟨k, hk, ?_⟩
    rw [if_pos hc, hll]
    simp only [distance_between_locations, Option.map_some]
    rw [hd]
    rfl

end NeoBase

/-- Claim C6: a pair `(d, k)` is produced by `find_near_location` for a
reference location and candidate list exactly when `k` is a candidate
that is present in the store with a resolvable geocode `ll`, the
distance `d` is the haversine distance to `ll`, and `d ≤ radius`
(inclusive); every candidate not returned is absent, has an unusable
geocode, or lies strictly beyond the radius. -/
theorem neobase_C6_radius_filter (hav : LatLng → LatLng → ℚ) (b : Store)
    (ref : LatLng) (r : ℚ) (keysArg : List String) (d : ℚ) (k : String) :
    ((d, k) ∈ NeoBase.find_near_location hav b (some ref) r (some keysArg) ↔
      (k ∈ keysArg ∧ NeoBase.contains b (some k) = true ∧
        ∃ ll, NeoBase.get_locationD b (some k) = .ok (some ll) ∧
          d = hav ref ll ∧ d ≤ r)) ∧
    NeoBase.find_near_location hav b (some ref) r none =
      NeoBase.find_near_location hav b (some ref) r (some (NeoBase.keys b)) := by
  refine ⟨?_, rfl⟩
  have hfn : NeoBase.find_near_location hav b (some ref) r (some keysArg) =
      (NeoBase._build_distances hav b (some ref) keysArg).filter
        (fun p => p.1 ≤ r) := rfl
  rw [hfn]
  rw [List.mem_filter]
  rw [NeoBase.mem_build_distances]
  simp only [decide_eq_true_eq]
  constructor
  · rintro ⟨⟨hk, hc, ll, hll, hd⟩, hr⟩
    exact ⟨hk, hc, ll, hll, hd, hr⟩
  · rintro ⟨hk, hc, ll, hll, hd, hr⟩
    exact ⟨⟨hk, hc, ll, hll, hd⟩, hr⟩

/-- Claim C7, counterexample: with an empty candidate set,
`find_closest_from_location` with `N = 1` returns zero pairs, not the
claimed `N` pairs. -/
theorem neobase_C7_counterexample :
    (NeoBase.find_closest_from_location havW [] (some (0, 0)) 1 (some [])).length ≠ 1 := by
  decide

/-- Claim C7 (amended): `find_closest_from_location` returns
`min N (number of resolvable candidates)` pairs, sorted ascending under
the full tuple order (distance first, key as tie-break); they are the
smallest of the candidate pairs under that order (every returned pair is
`≤` every pair left out); and the result for `N` is a prefix of the
result for `N + 1`. -/
theorem neobase_C7_nsmallest (hav : LatLng → LatLng → ℚ) (b : Store) (ref : LatLng)
    (n : Nat) (keysArg : List String) :
    List.Sorted NeoBase.tupleLE
      (NeoBase.find_closest_from_location hav b (some ref) n (some keysArg)) ∧
    (NeoBase.find_closest_from_location hav b (some ref) n (some keysArg)).length =
      min n (NeoBase._build_distances hav b (some ref) keysArg).length ∧
    (∃ rest, (NeoBase._build_distances hav b (some ref) keysArg).Perm
        (NeoBase.find_closest_from_location hav b (some ref) n (some keysArg) ++ rest) ∧
      ∀ x ∈ NeoBase.find_closest_from_location hav b (some ref) n (some keysArg),
        ∀ y ∈ rest, NeoBase.tupleLE x y) ∧
    (∃ t2, NeoBase.find_closest_from_location hav b (some ref) n (some keysArg) ++ t2 =
      NeoBase.find_closest_from_location hav b (some ref) (n + 1) (some keysArg)) ∧
    NeoBase.find_closest_from_location hav b (some ref) n none =
      NeoBase.find_closest_from_location hav b (some ref) n (some (NeoBase.keys b)) := by
  have hfc : ∀ m : Nat,
      NeoBase.find_closest_from_location hav b (some ref) m (some keysArg) =
        (List.insertionSort NeoBase.tupleLE
          (NeoBase._build_distances hav b (some ref) keysArg)).take m :=
    fun m => rfl
  have hsorted := List.sorted_insertionSort NeoBase.tupleLE
    (NeoBase._build_distances hav b (some ref) keysArg)
  have hperm := List.perm_insertionSort NeoBase.tupleLE
    (NeoBase._build_distances hav b (some ref) keysArg)
  refine ⟨?_, ?_, ?_, ?_, rfl⟩
  · rw [hfc n]
    exact List.Pairwise.sublist (List.take_sublist _ _) hsorted
  · rw [hfc n, List.length_take, hperm.length_eq]
  · rw [hfc n]
    refine ⟨(List.insertionSort NeoBase.tupleLE
      (NeoBase._build_distances hav b (some ref) keysArg)).drop n, ?_, ?_⟩
    · rw [List.take_append_drop]
      exact hperm.symm
    · intro x hx y hy
      have hsplit := hsorted
      rw [← List.take_append_drop n (List.insertionSort NeoBase.tupleLE
        (NeoBase._build_distances hav b (some ref) keysArg))] at hsplit
      exact (List.pairwise_append.mp hsplit).2.2 x hx y hy
  · rw [hfc n, hfc (n + 1)]
    refine ⟨(List.insertionSort NeoBase.tupleLE
      (NeoBase._build_distances hav b (some ref) keysArg)).take (n + 1) |>.drop n, ?_⟩
    have htt : (List.insertionSort NeoBase.tupleLE
        (NeoBase._build_distances hav b (some ref) keysArg)).take n =
        ((List.insertionSort NeoBase.tupleLE
          (NeoBase._build_distances hav b (some ref) keysArg)).take (n + 1)).take n := by
      rw [List.take_take, Nat.min_eq_left (Nat.le_succ n)]
    rw [htt, List.take_append_drop]

/-- Claim C10: the by-key searches `find_near` and `find_closest_from`
yield the empty sequence both when the reference key is absent from the
store and when the key is present but its geocode is unusable
(`get_location` returns Python `None`); no error is raised in either
case. -/
theorem neobase_C10_soft_fail (hav : LatLng → LatLng → ℚ) (b : Store)
    (key : Option String) (r : ℚ) (n : Nat) (fk : Option (List String)) :
    (NeoBase.contains b key = false →
      NeoBase.find_near hav b key r fk = [] ∧
      NeoBase.find_closest_from hav b key n fk = []) ∧
    (NeoBase.contains b key = true → NeoBase.get_locationD b key = .ok none →
      NeoBase.find_near hav b key r fk = [] ∧
      NeoBase.find_closest_from hav b key n fk = []) := by
  constructor
  · intro hc
    constructor
    · rw [NeoBase.find_near.eq_def]
      simp [hc]
    · rw [NeoBase.find_closest_from.eq_def]
      simp [hc]
  · intro hc hg
    constructor
    · rw [NeoBase.find_near.eq_def]
      simp only [hc, Bool.not_true, Bool.false_eq_true, if_false, hg]
      rfl
    · rw [NeoBase.find_closest_from.eq_def]
      simp only [hc, Bool.not_true, Bool.false_eq_true, if_false, hg]
      rw [show NeoBase.find_closest_from_location hav b none n
          (some (match fk with | none => NeoBase.keys b | some l => l)) =
          ([] : List (ℚ × String)).take n from rfl]
      simp

namespace NeoBase

theorem pairwiseL_map {α β : Type} (f : α → β) :
    ∀ l : List α, pairwiseL (l.map f) = (pairwiseL l).map (fun p => (f p.1, f p.2)) := by
  intro l
  induction l with
  | nil => rfl
  | cons a t ih =>
    cases t with
    | nil => rfl
    | cons b t2 =>
      show (f a, f b) :: pairwiseL (List.map f (b :: t2)) =
        (f a, f b) :: (pairwiseL (b :: t2)).map (fun p => (f p.1, f p.2))
      rw [ih]

theorem fsum_map_some : ∀ l : List ℚ, fsum (l.map some) = .ok l.sum := by
  intro l
  induction l with
  | nil => rfl
  | cons q t ih =>
    simp only [List.map_cons, fsum, ih, Except.map, List.sum_cons]

theorem fsum_none : ∀ l : List (Option ℚ), none ∈ l → fsum l = .error .typeError := by
  intro l
  induction l with
  | nil => intro h; exact absurd h (by simp)
  | cons o t ih =>
    intro h
    cases o with
    | none => rfl
    | some q =>
      have hnone : none ∈ t := by
        rcases List.mem_cons.mp h with h1 | h1
        · exact absurd h1 (by simp)
        · exact h1
      simp only [fsum, ih hnone, Except.map]

theorem mem_pairwiseL {α : Type} :
    ∀ (l : List α) (x : α), x ∈ l → 2 ≤ l.length →
      ∃ p ∈ pairwiseL l, p.1 = x ∨ p.2 = x := by
  intro l
  induction l with
  | nil => intro x hx _; exact absurd hx (by simp)
  | cons a t ih =>
    intro x hx hlen
    cases t with
    | nil => simp at hlen
    | cons b t2 =>
      rcases List.mem_cons.mp hx with h1 | h1
      · exact ⟨(a, b), by simp [pairwiseL], Or.inl h1.symm⟩
      · cases t2 with
        | nil =>
          have hxb : x = b := by simpa using h1
          exact ⟨(a, b), by simp [pairwiseL], Or.inr hxb.symm⟩
        | cons c t3 =>
          obtain ⟨p, hp, hside⟩ := ih x h1 (by simp)
          exact ⟨p, List.mem_cons_of_mem (a, b) hp, hside⟩

theorem mapM_glD_ok (b : Store) :
    ∀ keysArg : List String, (∀ k ∈ keysArg, contains b (some k) = true) →
      ∃ locs, keysArg.mapM (fun k => get_locationD b (some k)) = .ok locs ∧
        locs.length = keysArg.length ∧
        ∀ k ∈ keysArg, ∃ o ∈ locs, get_locationD b (some k) = .ok o := by
  intro keysArg
  induction keysArg with
  | nil =>
    intro _
    exact ⟨[], rfl, rfl, by simp⟩
  | cons k t ih =>
    intro hall
    obtain ⟨o, ho⟩ := get_locationD_ok_of_contains b (some k) (hall k (by simp))
    obtain ⟨locs, hm, hlen, hmem⟩ := ih (fun x hx => hall x (by simp [hx]))
    refine ⟨o :: locs, ?_, by simp [hlen], ?_⟩
    · rw [List.mapM_cons, ho, hm]
      rfl
    · intro k2 hk2
      rcases List.mem_cons.mp hk2 with h1 | h1
      · subst h1
        exact ⟨o, by simp, ho⟩
      · obtain ⟨o2, ho2, hg2⟩ := hmem k2 h1
        exact ⟨o2, by simp [ho2], hg2⟩

theorem mapM_glD_err (b : Store) :
    ∀ keysArg : List String, (∃ k ∈ keysArg, contains b (some k) = false) →
      keysArg.mapM (fun k => get_locationD b (some k)) = .error .unknownKeyError := by
  intro keysArg
  induction keysArg with
  | nil =>
    intro h
    simp at h
  | cons k t ih =>
    intro h
    cases hc : contains b (some k) with
    | false =>
      rw [List.mapM_cons, get_locationD_of_not_contains b (some k) hc]
      rfl
    | true =>
      obtain ⟨o, ho⟩ := get_locationD_ok_of_contains b (some k) hc
      have htail : ∃ k2 ∈ t, contains b (some k2) = false := by
        obtain ⟨k2, hk2, hc2⟩ := h
        rcases List.mem_cons.mp hk2 with h1 | h1
        · subst h1
          rw [hc] at hc2
          exact absurd hc2 (by simp)
        · exact ⟨k2, h1, hc2⟩
      rw [List.mapM_cons, ho, ih htail]
      rfl

end NeoBase

/-- Claim C8: when every key resolves to a location, `distance` returns
the sum of the haversine distances along the consecutive chain of
locations, reducing to the single-pair distance for exactly two keys;
when some key is absent from the store, the call raises UnknownKey
without a default and returns the default when one is supplied. -/
theorem neobase_C8_distance_chain {α : Type} (hav : LatLng → LatLng → ℚ) (b : Store)
    (keysArg : List String) (locs : List LatLng) (dflt : Option α)
    (k1 k2 : String) (l1 l2 : LatLng) (a : α) :
    (keysArg.mapM (fun k => NeoBase.get_locationD b (some k)) = .ok (locs.map some) →
      NeoBase.distance hav b keysArg dflt =
        .ok (.inl (((NeoBase.pairwiseL locs).map (fun p => hav p.1 p.2)).sum))) ∧
    (NeoBase.get_locationD b (some k1) = .ok (some l1) →
      NeoBase.get_locationD b (some k2) = .ok (some l2) →
      NeoBase.distance hav b [k1, k2] dflt = .ok (.inl (hav l1 l2))) ∧
    ((∃ k ∈ keysArg, NeoBase.contains b (some k) = false) →
      NeoBase.distance hav b keysArg (none : Option α) = .error .unknownKeyError ∧
      NeoBase.distance hav b keysArg (some a) = .ok (.inr a)) := by
  have hA : ∀ (ks : List String) (ls : List LatLng),
      ks.mapM (fun k => NeoBase.get_locationD b (some k)) = .ok (ls.map some) →
      NeoBase.distance hav b ks dflt =
        .ok (.inl (((NeoBase.pairwiseL ls).map (fun p => hav p.1 p.2)).sum)) := by
    intro ks ls hm
    rw [NeoBase.distance.eq_def, hm]
    show Except.map Sum.inl
        (NeoBase.fsum ((NeoBase.pairwiseL (ls.map some)).map
          (fun p => NeoBase.distance_between_locations hav p.1 p.2))) =
      Except.ok (Sum.inl (((NeoBase.pairwiseL ls).map (fun p => hav p.1 p.2)).sum))
    rw [NeoBase.pairwiseL_map]
    have hcomp : ((NeoBase.pairwiseL ls).map (fun p => (some p.1, some p.2))).map
        (fun p => NeoBase.distance_between_locations hav p.1 p.2) =
        ((NeoBase.pairwiseL ls).map (fun p => hav p.1 p.2)).map some := by
      rw [List.map_map, List.map_map]
      rfl
    rw [hcomp, NeoBase.fsum_map_some]
    rfl
  refine ⟨hA keysArg locs, ?_, ?_⟩
  · intro h1 h2
    have hm2 : [k1, k2].mapM (fun k => NeoBase.get_locationD b (some k)) =
        .ok ([l1, l2].map some) := by
      rw [List.mapM_cons, h1, List.mapM_cons, h2, List.mapM_nil]
      rfl
    rw [hA [k1, k2] [l1, l2] hm2]
    simp [NeoBase.pairwiseL]
  · intro hex
    have herr := NeoBase.mapM_glD_err b keysArg hex
    constructor
    · rw [NeoBase.distance.eq_def, herr]
      rfl
    · rw [NeoBase.distance.eq_def, herr]
      rfl

/-- Witness for claim C8: a two-key chain distance on a concrete store,
and the default/raise behavior for an absent key. -/
theorem neobase_C8_distance_chain_witness :
    NeoBase.distance havW stGeo2 ["AAA", "CCC"] (some (7 : Nat)) =
      .ok (.inl (havW (3/2, 5/2) (3, 4))) ∧
    (NeoBase.distance havW stGeo2 ["AAA", "ZZZ"] (none : Option Nat) =
      .error .unknownKeyError ∧
     NeoBase.distance havW stGeo2 ["AAA", "ZZZ"] (some (7 : Nat)) = .ok (.inr 7)) :=
  ⟨(neobase_C8_distance_chain havW stGeo2 [] [] (some 7) "AAA" "CCC"
      (3/2, 5/2) (3, 4) 7).2.1 (by decide) (by decide),
   (neobase_C8_distance_chain havW stGeo2 ["AAA", "ZZZ"] [] (some 7) "AAA" "CCC"
      (3/2, 5/2) (3, 4) 7).2.2 (by decide)⟩

/-- Claim C9: when every key exists in the store but at least one has an
unusable geocode and at least two keys are given, `distance` neither
returns an absent value nor the supplied default: the `None` location
reaches the summation and the call fails with TypeError, which the
default parameter does not suppress. -/
theorem neobase_C9_geocode_typeerror {α : Type} (hav : LatLng → LatLng → ℚ)
    (b : Store) (keysArg : List String) (dflt : Option α)
    (hall : ∀ k ∈ keysArg, NeoBase.contains b (some k) = true)
    (hbad : ∃ k ∈ keysArg, NeoBase.get_locationD b (some k) = .ok none)
    (hlen : 2 ≤ keysArg.length) :
    NeoBase.distance hav b keysArg dflt = .error .typeError := by
  obtain ⟨locs, hm, hlength, hmem⟩ := NeoBase.mapM_glD_ok b keysArg hall
  obtain ⟨k, hk, hknone⟩ := hbad
  obtain ⟨o, ho, hko⟩ := hmem k hk
  have hone : o = none := by
    rw [hknone] at hko
    injection hko with h
    exact h.symm
  subst hone
  rw [NeoBase.distance.eq_def, hm]
  obtain ⟨p, hp, hside⟩ := NeoBase.mem_pairwiseL locs none ho (by omega)
  have hnone : none ∈ (NeoBase.pairwiseL locs).map
      (fun p => NeoBase.distance_between_locations hav p.1 p.2) := by
    rw [List.mem_map]
    refine ⟨p, hp, ?_⟩
    obtain ⟨p1, p2⟩ := p
    rcases hside with h | h
    · simp only at h
      subst h
      cases p2 <;> rfl
    · simp only at h
      subst h
      cases p1 <;> rfl
  show Except.map Sum.inl
      (NeoBase.fsum ((NeoBase.pairwiseL locs).map
        (fun p => NeoBase.distance_between_locations hav p.1 p.2))) =
    Except.error PyErr.typeError
  rw [NeoBase.fsum_none _ hnone]
  rfl

/-- Witness for claim C9: both keys exist but one geocode is unusable,
so the call raises TypeError despite the supplied default. -/
theorem neobase_C9_geocode_typeerror_witness :
    (∀ k ∈ (["AAA", "BBB"] : List String),
      NeoBase.contains stGeo (some k) = true) ∧
    (∃ k ∈ (["AAA", "BBB"] : List String),
      NeoBase.get_locationD stGeo (some k) = .ok none) ∧
    NeoBase.distance havW stGeo ["AAA", "BBB"] (some (7 : Nat)) = .error .typeError :=
  ⟨by decide, by decide,
   neobase_C9_geocode_typeerror havW stGeo ["AAA", "BBB"] (some 7)
     (by decide) (by decide) (by decide)⟩

/-- Witness for claim C10: empty result both for an absent reference key
and for a present key with an unusable geocode. -/
theorem neobase_C10_soft_fail_witness :
    (NeoBase.find_near havW ([] : Store) (some "AAA") 5 none = [] ∧
      NeoBase.find_closest_from havW ([] : Store) (some "AAA") 2 none = []) ∧
    (NeoBase.find_near havW stGeo (some "BBB") 5 none = [] ∧
      NeoBase.find_closest_from havW stGeo (some "BBB") 2 none = []) :=
  ⟨(neobase_C10_soft_fail havW [] (some "AAA") 5 2 none).1 (by decide),
   (neobase_C10_soft_fail havW stGeo (some "BBB") 5 2 none).2 (by decide) (by decide)⟩
